import Mathlib

/-!
Verification development for the `releases` Docusaurus plugin
(`website/plugins/releases/releaseUtils.js` and
`website/plugins/releases/index.js`).

Strings are modelled as lists of characters (`Str`), JavaScript arrays as
Lean lists.  The file-system / IO surface of the code (`fs.existsSync`,
`globby`, `fs.readFile`, the front-matter parser and the reading-time
collaborator) is modelled by passing the data those calls would produce as
explicit inputs: a `SourceFile` record carries the parsed pieces of one
matched file, and `dirExists` stands for `fs.existsSync(releaseDir)`.
External library collaborators used by the code (`path.resolve`,
`path.relative`, `path.join`, `@docusaurus/utils.normalizeUrl`,
`@docusaurus/utils.aliasedSitePath`) are modelled as executable functions
on `Str` following their documented POSIX behaviour.
-/

set_option maxRecDepth 10000

/-- JS strings are modelled as lists of characters. -/
abbrev Str := List Char

/-- Coerce a Lean string literal to the `Str` model. -/
def str (s : String) : Str := s.data

/-- The apostrophe character (kept out of character-literal syntax). -/
def quoteChar : Char := Char.ofNat 39

/-- The double-quote character. -/
def dquoteChar : Char := Char.ofNat 34

/-- The backtick character. -/
def backtickChar : Char := Char.ofNat 96

/-- A line of three backticks, the fence marker tested by `linkify`. -/
def fenceMarker : Str := [backtickChar, backtickChar, backtickChar]

/-- Model of the JS `\s` character class / `String.prototype.trim` whitespace,
restricted to the ASCII whitespace characters relevant to this code base. -/
def isSpaceChar (c : Char) : Bool :=
  c = ' ' || c = '\t' || c = '\n' || c = '\r' || c = Char.ofNat 11 || c = Char.ofNat 12

/-- Split a string at every occurrence of `sep`, keeping empty fragments:
the model of JS `String.prototype.split` with a single-character separator. -/
def splitOnChar (sep : Char) : Str → List Str
  | [] => [[]]
  | c :: cs =>
    if c = sep then [] :: splitOnChar sep cs
    else
      match splitOnChar sep cs with
      | [] => [[c]]
      | l :: ls => (c :: l) :: ls

/-- Join fragments with a single-character separator: the model of
`Array.prototype.join` as used on the result of a split. -/
def joinOnChar (sep : Char) : List Str → Str
  | [] => []
  | [l] => l
  | l :: l' :: ls => l ++ sep :: joinOnChar sep (l' :: ls)

/-- `fileContent.split(newline)` as used by `linkify`. -/
def splitLines (s : Str) : List Str := splitOnChar '\n' s

/-- `lines.join(newline)` as used by `linkify`. -/
def joinLines (ls : List Str) : Str := joinOnChar '\n' ls

/-- Model of JS `String.prototype.trim` (both ends). -/
def trimStr (s : Str) : Str :=
  ((s.dropWhile isSpaceChar).reverse.dropWhile isSpaceChar).reverse

/-- Collapse every run of consecutive slashes to a single slash. -/
def collapseSlashes : Str → Str
  | [] => []
  | [c] => [c]
  | c :: d :: rest =>
    if c = '/' && d = '/' then collapseSlashes (d :: rest)
    else c :: collapseSlashes (d :: rest)

/-- Modelled from the spec: `@docusaurus/utils.normalizeUrl`, described as
concatenation of the parts with redundant separators collapsed. -/
def normalizeUrl (parts : List Str) : Str :=
  collapseSlashes (joinOnChar '/' parts)

/-- Path segments of a POSIX path string (empty segments kept for now). -/
def pathSegsRaw (p : Str) : List Str := splitOnChar '/' p

/-- Normalize a segment list: drop empty and `.` segments, let `..` pop the
previous segment (at the root it is dropped), as POSIX `path` does for
absolute paths. -/
def normSegs (segs : List Str) : List Str :=
  segs.foldl
    (fun acc seg =>
      if seg = [] || seg = str "." then acc
      else if seg = str ".." then acc.dropLast
      else acc ++ [seg])
    []

/-- Model of Node `path.resolve(base, p)` for an absolute `base` (the plugin
always passes absolute directories): an absolute `p` wins, otherwise `p` is
appended to `base`, and the result is normalized. -/
def pathResolve (base p : Str) : Str :=
  match p with
  | '/' :: _ => '/' :: joinOnChar '/' (normSegs (pathSegsRaw p))
  | _ => '/' :: joinOnChar '/' (normSegs (pathSegsRaw base ++ pathSegsRaw p))

/-- Model of Node `path.join(a, b)` for an absolute `a` and relative `b`,
as used for `path.join(releaseDir, relativeSource)`. -/
def pathJoin (a b : Str) : Str :=
  '/' :: joinOnChar '/' (normSegs (pathSegsRaw a ++ pathSegsRaw b))

/-- Drop the longest common prefix of two segment lists. -/
def dropCommonSegs : List Str → List Str → List Str × List Str
  | a :: as, b :: bs =>
    if a = b then dropCommonSegs as bs else (a :: as, b :: bs)
  | as, bs => (as, bs)

/-- Model of Node `path.relative(from, to)` for absolute arguments. -/
def pathRelative (fromPath toPath : Str) : Str :=
  let f := normSegs (pathSegsRaw fromPath)
  let t := normSegs (pathSegsRaw toPath)
  let (f', t') := dropCommonSegs f t
  joinOnChar '/' (f'.map (fun _ => str "..") ++ t')

/-- Model of `@docusaurus/utils.aliasedSitePath`: the path relative to the
site directory, prefixed with the `@site/` alias.  `linkify` computes the
same expression inline for link targets. -/
def aliasedSitePath (filePath siteDir : Str) : Str :=
  str "@site/" ++ pathRelative siteDir filePath

/-- JS truthy-or for an optional string against a string fallback
(`a || b`): `undefined` and the empty string are falsy. -/
def jsOr (a : Option Str) (b : Str) : Str :=
  match a with
  | some s => if s = [] then b else s
  | none => b

/-- JS truthy-or of two optional strings (`a || b`), keeping absence. -/
def jsOrOpt (a b : Option Str) : Option Str :=
  match a with
  | some s => if s = [] then b else some s
  | none => b

example : splitLines (str "a\nb\n") = [str "a", str "b", []] := by decide
example : joinLines (splitLines (str "a\nb\n")) = str "a\nb\n" := by decide
example : collapseSlashes (str "a//b///c") = str "a/b/c" := by decide
example : normalizeUrl [str "/", str "releases-new", str "v1"] = str "/releases-new/v1" := by decide
example : pathResolve (str "/site/releases") (str "./v1.md") = str "/site/releases/v1.md" := by decide
example : pathRelative (str "/site") (str "/site/releases/v1.md") = str "releases/v1.md" := by decide
example : pathResolve (str "/site/releases") (str "http://e.com/a.md") = str "/site/releases/http:/e.com/a.md" := by decide

/-- Front-matter fields read by the plugin (`id, title, description, date,
series_position, sort, cover_label, draft, tags`).  Absent fields are
`none`; `draft` is modelled by its truthiness. -/
structure FrontMatter where
  id : Option Str := none
  title : Option Str := none
  description : Option Str := none
  date : Option Str := none
  series_position : Option Int := none
  sort : Option Int := none
  cover_label : Option Str := none
  draft : Bool := false
  tags : Option (List Str) := none
deriving DecidableEq, Repr

/-- One file matched by the glob, with the data the IO collaborators
produce for it: its path relative to the release directory, the parsed
front matter / body / excerpt (from `@docusaurus/utils.parse`) and the
text of the reading-time estimate (from the `reading-time` package). -/
structure SourceFile where
  relativeSource : Str
  frontMatter : FrontMatter := {}
  content : Str := []
  excerpt : Option Str := none
  readingTimeText : Str := []
deriving DecidableEq, Repr

/-- A `prevItem`/`nextItem` reference: title and permalink of a neighbour. -/
structure Paginator where
  title : Str
  permalink : Str
deriving DecidableEq, Repr

/-- Metadata common to `ReleaseMetaData` and `ReleaseHighlightMetaData`
(types.ts); the fields specific to one kind live in the `extra` slot. -/
structure MetaData (ε : Type) where
  extra : ε
  description : Option Str
  permalink : Str
  readingTime : Str
  seriesPosition : Option Int
  sort : Option Int
  source : Str
  title : Str
  truncated : Bool
  prevItem : Option Paginator := none
  nextItem : Option Paginator := none
deriving DecidableEq, Repr

/-- The `Release`-only metadata field. -/
structure ReleaseExtra where
  coverLabel : Str
deriving DecidableEq, Repr

/-- The `ReleaseHighlight`-only metadata fields. -/
structure HighlightExtra where
  date : Option Str
  tags : List Str
deriving DecidableEq, Repr

/-- A document record (`Release` / `ReleaseHighlight` from types.ts):
an `id` and a metadata record. -/
structure Doc (ε : Type) where
  id : Option Str
  metadata : MetaData ε
deriving DecidableEq, Repr

/-- `Release` as in types.ts. -/
abbrev Release := Doc ReleaseExtra

/-- `ReleaseHighlight` as in types.ts. -/
abbrev ReleaseHighlight := Doc HighlightExtra

/-- The environment of one `generateReleases` / `generateHighlights` call:
plugin options, site context, and the answers of the ambient IO checks.
`truncateMarker` is the regex `test` oracle of the configured marker. -/
structure GenEnv where
  production : Bool
  baseUrl : Str
  routeBasePath : Str
  truncateMarker : Option (Str → Bool)
  releaseDir : Str
  siteDir : Str
  dirExists : Bool

/-- Strip a final `.md` / `.mdx` extension:
`relativeSource.replace(markdown-extension-at-end, empty)`. -/
def stripMdExt (s : Str) : Str :=
  if (str ".mdx").isSuffixOf s then s.take (s.length - 4)
  else if (str ".md").isSuffixOf s then s.take (s.length - 3)
  else s

/-- `truncateMarker?.test(content) || false`. -/
def truncatedFlag (marker : Option (Str → Bool)) (content : Str) : Bool :=
  match marker with
  | some m => m content
  | none => false

/-- The body of the `releaseFiles.map` callback in `generateReleases`:
build one `Release` from one parsed source file, or skip it when it is a
draft and the build runs in production mode. -/
def mkRelease (env : GenEnv) (f : SourceFile) : Option Release :=
  if f.frontMatter.draft && env.production then none
  else
    let linkName := stripMdExt f.relativeSource
    let title := jsOr f.frontMatter.title linkName
    let coverLabel := jsOr f.frontMatter.cover_label title
    some
      { id := jsOrOpt f.frontMatter.id f.frontMatter.title
        metadata :=
          { extra := { coverLabel := coverLabel }
            description := jsOrOpt f.frontMatter.description f.excerpt
            permalink :=
              normalizeUrl
                [env.baseUrl, env.routeBasePath, jsOr f.frontMatter.id linkName]
            readingTime := f.readingTimeText
            seriesPosition := f.frontMatter.series_position
            sort := f.frontMatter.sort
            source :=
              aliasedSitePath (pathJoin env.releaseDir f.relativeSource) env.siteDir
            title := title
            truncated := truncatedFlag env.truncateMarker f.content } }

/-- The body of the `highlightFiles.map` callback in `generateHighlights`. -/
def mkHighlight (env : GenEnv) (f : SourceFile) : Option ReleaseHighlight :=
  if f.frontMatter.draft && env.production then none
  else
    let linkName := stripMdExt f.relativeSource
    let title := jsOr f.frontMatter.title linkName
    some
      { id := jsOrOpt f.frontMatter.id f.frontMatter.title
        metadata :=
          { extra :=
              { date := f.frontMatter.date
                tags := f.frontMatter.tags.getD [] }
            description := jsOrOpt f.frontMatter.description f.excerpt
            permalink :=
              normalizeUrl
                [env.baseUrl, env.routeBasePath, jsOr f.frontMatter.id linkName]
            readingTime := f.readingTimeText
            seriesPosition := f.frontMatter.series_position
            sort := f.frontMatter.sort
            source :=
              aliasedSitePath (pathJoin env.releaseDir f.relativeSource) env.siteDir
            title := title
            truncated := truncatedFlag env.truncateMarker f.content } }

/-- `generateReleases`: an absent release directory yields an empty
collection; otherwise every globbed file is read, parsed and turned into a
`Release` (drafts skipped in production).  The completion order of the
parallel reads is modelled as the input order. -/
def generateReleases (env : GenEnv) (files : List SourceFile) : List Release :=
  if !env.dirExists then []
  else files.filterMap (mkRelease env)

/-- `generateHighlights`: same shape as `generateReleases`, over the files
globbed under the `highlights/` sub-directory. -/
def generateHighlights (env : GenEnv) (files : List SourceFile) : List ReleaseHighlight :=
  if !env.dirExists then []
  else files.filterMap (mkHighlight env)

/-- Characters admitted inside a link target by the character class of the
`linkify` regex: everything except quotes, closing parenthesis or bracket,
`>` and whitespace. -/
def targetChar (c : Char) : Bool :=
  !(c = quoteChar || c = dquoteChar || c = ')' || c = ']' || c = '>' || isSpaceChar c)

/-- Match the tail of the `linkify` regex at the start of `u`: the negative
`https` lookahead followed by the captured group (a non-empty run of
`targetChar`s ending in a markdown extension, with the usual greedy
backtracking semantics).  Returns the length consumed and the capture. -/
def mdSplit (run : Str) : Option Nat :=
  ((List.range run.length).filter
    (fun l => decide (1 ≤ l) && (str ".md").isPrefixOf (run.drop l))).max?

/-- Given the maximal run of target characters, cut the capture at the
last markdown-extension position (greedily including a trailing `x`). -/
def takeTarget (run : Str) : Option (Nat × Str) :=
  match mdSplit run with
  | none => none
  | some l =>
    if (str ".mdx").isPrefixOf (run.drop l) then some (l + 4, run.take (l + 4))
    else some (l + 3, run.take (l + 3))

def tryTarget (u : Str) : Option (Nat × Str) :=
  if (str "https").isPrefixOf u then none
  else takeTarget (u.takeWhile targetChar)

/-- Try to match the whole `linkify` regex at position `j` of `s`: one of
the prefixes `](` or `]:` (the latter with an optional whitespace
character) followed by `tryTarget`.  Returns the end position of the match
and the captured link target. -/
def linkHeadWidth (s : Str) (j : Nat) : Nat :=
  match ((s.drop j).drop 2).head? with
  | some c => if isSpaceChar c then 3 else 2
  | none => 2

def matchAt (s : Str) (j : Nat) : Option (Nat × Str) :=
  if (str "](").isPrefixOf (s.drop j) then
    match tryTarget ((s.drop j).drop 2) with
    | some (e, tgt) => some (j + 2 + e, tgt)
    | none => none
  else if (str "]:").isPrefixOf (s.drop j) then
    match tryTarget ((s.drop j).drop (linkHeadWidth s j)) with
    | some (e, tgt) => some (j + linkHeadWidth s j + e, tgt)
    | none => none
  else none

/-- Scan for the first regex match at or after position `j` (bounded by the
given fuel, one unit per candidate start position). -/
def execAux (s : Str) : Nat → Nat → Option (Nat × Nat × Str)
  | 0, _ => none
  | fuel + 1, j =>
    match matchAt s j with
    | some (e, tgt) => some (j, e, tgt)
    | none => execAux s fuel (j + 1)

/-- Model of `mdRegex.exec` on a regex with the `g` flag whose `lastIndex`
is `i`: the first match at or after position `i`, as
`(match start, new lastIndex, captured target)`. -/
def execFrom (s : Str) (i : Nat) : Option (Nat × Nat × Str) :=
  execAux s (s.length + 1 - i) i

/-- Model of `String.prototype.replace` with a plain-string pattern:
replace the first occurrence of `target` (the whole string is returned
unchanged when there is none). -/
def replaceFirst (target repl : Str) : Str → Str
  | [] => if target = [] then repl else []
  | c :: cs =>
    if target.isPrefixOf (c :: cs) then repl ++ (c :: cs).drop target.length
    else c :: replaceFirst target repl cs

/-- The `releases.forEach` lookup inside `linkify`: the permalink of the
last release whose `metadata.source` equals the aliased link source
(`null` when none matches). -/
def lookupPermalink (releases : List (Doc ε)) (src : Str) : Option Str :=
  releases.foldl
    (fun acc r => if r.metadata.source = src then some r.metadata.permalink else acc)
    none

/-- The aliased source computed by `linkify` for a link target:
the `@site/`-prefixed path of the target resolved against the document's
directory, relative to the site directory. -/
def linkTargetAlias (siteDir releasePath target : Str) : Str :=
  str "@site/" ++ pathRelative siteDir (pathResolve releasePath target)

/-- Fuel for the rewrite loop of one line.  The JS `while` advances
`lastIndex` past a ≥ 6 character match on every iteration, so this bound
covers every terminating run of the source loop on the inputs considered
here (the loop can exceed any fixed bound only when a substituted
permalink keeps re-introducing matches ahead of `lastIndex`). -/
def lineFuel (releases : List (Doc ε)) (line : Str) : Nat :=
  (line.length + 1) *
    (1 + ((releases.map (fun r => r.metadata.permalink.length)).foldl Nat.add 0))

/-- The `while (mdMatch !== null)` loop of `linkify`: repeatedly find the
next match after `lastIndex`, look its aliased source up in the release
collection, and substitute the permalink for the first occurrence of the
matched target when a (truthy) permalink was found. -/
def lineLoop (releases : List (Doc ε)) (siteDir releasePath : Str) :
    Nat → Str → Nat → Str
  | 0, line, _ => line
  | fuel + 1, line, lastIndex =>
    match execFrom line lastIndex with
    | none => line
    | some (_, e, tgt) =>
      match lookupPermalink releases (linkTargetAlias siteDir releasePath tgt) with
      | some p =>
        if p = [] then lineLoop releases siteDir releasePath fuel line e
        else lineLoop releases siteDir releasePath fuel (replaceFirst tgt p line) e
      | none => lineLoop releases siteDir releasePath fuel line e

/-- Is this line a fence delimiter (`line.trim().startsWith(three
backticks)`)? -/
def fenceLine (line : Str) : Bool :=
  fenceMarker.isPrefixOf (trimStr line)

/-- The `lines.map` body of `linkify`: toggle the fenced flag on fence
lines, emit lines inside fences verbatim, rewrite the rest.  Note that the
toggle happens before the flag test, so a fence-opening line itself is
emitted verbatim while a fence-closing line is rewritten. -/
def processLines (releases : List (Doc ε)) (siteDir releasePath : Str) :
    Bool → List Str → List Str
  | _, [] => []
  | fenced, line :: rest =>
    let fenced' := if fenceLine line then !fenced else fenced
    let out :=
      if fenced' then line
      else lineLoop releases siteDir releasePath (lineFuel releases line) line 0
    out :: processLines releases siteDir releasePath fenced' rest

/-- `linkify(fileContent, siteDir, releasePath, releases)`: split into
lines, rewrite each line outside fenced blocks, and re-join. -/
def linkify (fileContent siteDir releasePath : Str) (releases : List (Doc ε)) : Str :=
  joinLines (processLines releases siteDir releasePath false (splitLines fileContent))

/-- The `{title, permalink}` record built for `prevItem` / `nextItem`. -/
def paginatorOf (m : MetaData ε) : Paginator :=
  { title := m.title, permalink := m.permalink }

/-- `release.metadata.prevItem = {...}`. -/
def withPrev (d : Doc ε) (p : Paginator) : Doc ε :=
  { d with metadata := { d.metadata with prevItem := some p } }

/-- `release.metadata.nextItem = {...}`. -/
def withNext (d : Doc ε) (p : Paginator) : Doc ε :=
  { d with metadata := { d.metadata with nextItem := some p } }

/-- The body of the colocation `forEach` callback of `loadContent` for the
element `r` at index `i`, reading its neighbours in the array `arr`:
`prevItem` is set from `arr[i-1]` when `i > 0`, `nextItem` from `arr[i+1]`
when it exists (`index < length - 1`). -/
def linkedAt (arr : List (Doc ε)) (i : Nat) (r : Doc ε) : Doc ε :=
  let r1 :=
    match (if 0 < i then arr[i - 1]? else none) with
    | some prev => withPrev r (paginatorOf prev.metadata)
    | none => r
  match arr[i + 1]? with
  | some next => withNext r1 (paginatorOf next.metadata)
  | none => r1

/-- One step of the colocation pass: overwrite the array cell `i` with its
linked value (the in-place `release.metadata.prevItem = ...` writes). -/
def colocateAt (arr : List (Doc ε)) (i : Nat) : List (Doc ε) :=
  match arr[i]? with
  | none => arr
  | some r => arr.set i (linkedAt arr i r)

/-- The whole colocation `forEach` of `loadContent` ("Colocate next and
prev metadata"), as a transformer of the shared `releases` array state:
the cells are updated in place, in index order.  The same code runs for
`releases` and (separately) for `releaseHighlights`. -/
def colocate (arr : List (Doc ε)) : List (Doc ε) :=
  (List.range arr.length).foldl colocateAt arr

/-- The `prevItem` candidate the pass computes for index `i`
(`index > 0 ? releases[index - 1] : null`, projected to a paginator). -/
def prevCand (arr : List (Doc ε)) (i : Nat) : Option Paginator :=
  if 0 < i then (arr[i - 1]?).map (fun p => paginatorOf p.metadata) else none

/-- The `nextItem` candidate the pass computes for index `i`. -/
def nextCand (arr : List (Doc ε)) (i : Nat) : Option Paginator :=
  (arr[i + 1]?).map (fun p => paginatorOf p.metadata)

theorem linkedAt_shape (arr : List (Doc ε)) (i : Nat) (r : Doc ε) :
    linkedAt arr i r =
      { id := r.id
        metadata :=
          { r.metadata with
              prevItem := (prevCand arr i).or r.metadata.prevItem
              nextItem := (nextCand arr i).or r.metadata.nextItem } } := by
  unfold linkedAt prevCand nextCand
  by_cases h0 : 0 < i
  · cases hp : arr[i - 1]? <;> cases hn : arr[i + 1]? <;>
      simp [h0, hp, hn, withPrev, withNext, Option.or]
  · cases hn : arr[i + 1]? <;>
      simp [h0, hn, withPrev, withNext, Option.or]

theorem linkedAt_title (arr : List (Doc ε)) (i : Nat) (r : Doc ε) :
    (linkedAt arr i r).metadata.title = r.metadata.title := by
  rw [linkedAt_shape]

theorem linkedAt_permalink (arr : List (Doc ε)) (i : Nat) (r : Doc ε) :
    (linkedAt arr i r).metadata.permalink = r.metadata.permalink := by
  rw [linkedAt_shape]

theorem paginatorOf_linkedAt (arr : List (Doc ε)) (i : Nat) (r : Doc ε) :
    paginatorOf (linkedAt arr i r).metadata = paginatorOf r.metadata := by
  rw [linkedAt_shape]; rfl

theorem colocate_invariant (arr : List (Doc ε)) (k : Nat) (hk : k ≤ arr.length) :
    ((List.range k).foldl colocateAt arr).length = arr.length ∧
      ∀ j, ((List.range k).foldl colocateAt arr)[j]? =
        if j < k then (arr[j]?).map (linkedAt arr j) else arr[j]? := by
  induction k with
  | zero => simp
  | succ k ih =>
    obtain ⟨ihlen, ihget⟩ := ih (Nat.le_of_succ_le hk)
    have hklt : k < arr.length := hk
    rw [List.range_succ, List.foldl_append]
    set A := (List.range k).foldl colocateAt arr with hA
    have hAk : A[k]? = arr[k]? := by rw [ihget]; simp
    obtain ⟨rk, hrk⟩ : ∃ r, arr[k]? = some r :=
      ⟨arr[k], List.getElem?_eq_getElem hklt⟩
    have hlink : linkedAt A k rk = linkedAt arr k rk := by
      rw [linkedAt_shape, linkedAt_shape]
      have hprev : prevCand A k = prevCand arr k := by
        unfold prevCand
        by_cases h0 : 0 < k
        · have : k - 1 < k := Nat.sub_lt h0 Nat.one_pos
          rw [ihget]
          simp only [this, if_pos, h0]
          cases hq : arr[k - 1]? <;> simp [hq, paginatorOf_linkedAt]
        · simp [h0]
      have hnext : nextCand A k = nextCand arr k := by
        unfold nextCand
        rw [ihget]
        simp [Nat.lt_irrefl, Nat.not_lt.mpr (Nat.le_succ k)]
      rw [hprev, hnext]
    constructor
    · simp [List.foldl, colocateAt, hAk, hrk, ihlen]
    · intro j
      simp only [List.foldl, colocateAt, hAk, hrk]
      by_cases hj : j = k
      · subst hj
        rw [List.getElem?_set_self, hlink, hrk]
        · simp [Nat.lt_succ_self]
        · rw [ihlen]; exact hklt
      · rw [List.getElem?_set_ne (fun h => hj h.symm), ihget]
        by_cases hjk : j < k
        · simp [hjk, Nat.lt_succ_of_lt hjk]
        · have : ¬ j < k + 1 := by omega
          simp [hjk, this]

theorem colocate_length (arr : List (Doc ε)) : (colocate arr).length = arr.length :=
  (colocate_invariant arr arr.length (Nat.le_refl _)).1

theorem colocate_getElem? (arr : List (Doc ε)) (j : Nat) :
    (colocate arr)[j]? = (arr[j]?).map (linkedAt arr j) := by
  have h := (colocate_invariant arr arr.length (Nat.le_refl _)).2 j
  rw [colocate] at *
  rw [h]
  by_cases hj : j < arr.length
  · simp [hj]
  · simp [hj, List.getElem?_eq_none (Nat.le_of_not_lt hj)]

theorem prevCand_colocate (arr : List (Doc ε)) (i : Nat) :
    prevCand (colocate arr) i = prevCand arr i := by
  unfold prevCand
  by_cases h0 : 0 < i
  · rw [colocate_getElem?]
    cases hq : arr[i - 1]? <;> simp [h0, hq, paginatorOf_linkedAt]
  · simp [h0]

theorem nextCand_colocate (arr : List (Doc ε)) (i : Nat) :
    nextCand (colocate arr) i = nextCand arr i := by
  unfold nextCand
  rw [colocate_getElem?]
  cases hq : arr[i + 1]? <;> simp [hq, paginatorOf_linkedAt]

theorem or_or_self (a b : Option α) : a.or (a.or b) = a.or b := by
  cases a <;> simp [Option.or]

theorem linkedAt_colocate_linkedAt (arr : List (Doc ε)) (j : Nat) (r : Doc ε) :
    linkedAt (colocate arr) j (linkedAt arr j r) = linkedAt arr j r := by
  rw [linkedAt_shape arr j r, linkedAt_shape, prevCand_colocate, nextCand_colocate]
  simp [or_or_self]

/-- Claim C9: the colocation pass is idempotent: running it again on its
own output reproduces exactly the same collection, in particular the same
prevItem and nextItem values. -/
theorem colocate_idempotent (ε : Type) (arr : List (Doc ε)) :
    colocate (colocate arr) = colocate arr := by
  apply List.ext_getElem?
  intro j
  rw [colocate_getElem?, colocate_getElem?]
  cases hr : arr[j]? with
  | none => rfl
  | some r => simp [linkedAt_colocate_linkedAt]

/-- Claim C1: after the colocation pass over a collection whose documents
carry no pagination links yet (as `generateReleases` and
`generateHighlights` produce them), the element at index `i` has
`prevItem` equal to the title/permalink paginator of the element at index
`i - 1` (none for the first element) and `nextItem` equal to the paginator
of the element at index `i + 1` (none for the last element); the length of
the collection is unchanged. -/
theorem colocate_prev_next_spec (ε : Type) (arr : List (Doc ε))
    (hclean : ∀ d ∈ arr, d.metadata.prevItem = none ∧ d.metadata.nextItem = none)
    (i : Nat) (d : Doc ε) (hd : (colocate arr)[i]? = some d) :
    (colocate arr).length = arr.length ∧
    (i = 0 → d.metadata.prevItem = none) ∧
    (∀ j, i = j + 1 →
      d.metadata.prevItem = (arr[j]?).map (fun p => paginatorOf p.metadata)) ∧
    (i + 1 = arr.length → d.metadata.nextItem = none) ∧
    (i + 1 < arr.length →
      d.metadata.nextItem = (arr[i + 1]?).map (fun p => paginatorOf p.metadata)) := by
  rw [colocate_getElem?] at hd
  cases hr : arr[i]? with
  | none => rw [hr] at hd; simp at hd
  | some r =>
    rw [hr] at hd
    simp only [Option.map, Option.some.injEq] at hd
    obtain ⟨hprev, hnext⟩ := hclean r (List.getElem?_mem hr)
    have hshape := linkedAt_shape arr i r
    refine ⟨colocate_length arr, ?_, ?_, ?_, ?_⟩
    · intro h0
      subst h0
      rw [← hd, hshape]
      simp [prevCand, hprev]
    · intro j hij
      subst hij
      rw [← hd, hshape]
      simp [prevCand, hprev]
    · intro hlast
      rw [← hd, hshape]
      have : arr[i + 1]? = none := List.getElem?_eq_none (Nat.le_of_eq hlast.symm)
      simp [nextCand, hnext, this]
    · intro hmid
      rw [← hd, hshape]
      obtain ⟨q, hq⟩ : ∃ q, arr[i + 1]? = some q :=
        ⟨arr[i + 1], List.getElem?_eq_getElem hmid⟩
      simp [nextCand, hnext, hq]

/-- A concrete release document used by witnesses and counterexamples. -/
def sampleRelease (t p srcPath : String) : Release :=
  { id := none
    metadata :=
      { extra := { coverLabel := str t }
        description := none
        permalink := str p
        readingTime := []
        seriesPosition := none
        sort := none
        source := str srcPath
        title := str t
        truncated := false } }

/-- Witness documents for the colocation pass. -/
def wDocA : Release := sampleRelease "a" "/r/a" ""

/-- Witness documents for the colocation pass. -/
def wDocB : Release := sampleRelease "b" "/r/b" ""

/-- Witness documents for the colocation pass. -/
def wDocC : Release := sampleRelease "c" "/r/c" ""

/-- Witness collection for the colocation pass. -/
def wArr : List Release := [wDocA, wDocB, wDocC]

/-- Witness for C1: on a concrete three-element collection, the middle
element is linked to its neighbours' title/permalink pairs. -/
theorem colocate_prev_next_spec_witness :
    (linkedAt wArr 1 wDocB).metadata.prevItem = some (paginatorOf wDocA.metadata) ∧
    (linkedAt wArr 1 wDocB).metadata.nextItem = some (paginatorOf wDocC.metadata) := by
  have h := colocate_prev_next_spec ReleaseExtra wArr (by decide) 1
    (linkedAt wArr 1 wDocB) (by decide)
  refine ⟨?_, ?_⟩
  · have h1 := h.2.2.1 0 rfl
    rw [h1, show wArr[0]? = some wDocA from rfl]
    rfl
  · have h2 := h.2.2.2.2 (by decide)
    rw [h2, show wArr[1 + 1]? = some wDocC from rfl]
    rfl

/-- Witness for C9 at a concrete input: re-running the pass on its own
output changes nothing. -/
theorem colocate_idempotent_witness :
    colocate (colocate wArr) = colocate wArr :=
  colocate_idempotent ReleaseExtra wArr

/-- Counterexample for C8: the colocation pass does not leave the input
documents unchanged — on a concrete two-element collection the document
stored in cell 0 of the shared array differs after the pass (its
`nextItem` was written in place by the `forEach`). -/
theorem colocate_mutates_counterexample :
    colocate [wDocA, wDocB] ≠ [wDocA, wDocB] ∧
    (colocate [wDocA, wDocB])[0]? ≠ some wDocA := by decide

/-- Claim C8 (amended): the colocation pass updates the shared releases
array in place — it yields the same collection with each document's
`prevItem`/`nextItem` overwritten — but mutates nothing else: the length
and every other field of every document are unchanged. -/
theorem colocate_changes_only_links (ε : Type) (arr : List (Doc ε)) (i : Nat)
    (a b : Doc ε) (ha : arr[i]? = some a) (hb : (colocate arr)[i]? = some b) :
    (colocate arr).length = arr.length ∧
    b = { id := a.id
          metadata :=
            { a.metadata with
                prevItem := b.metadata.prevItem
                nextItem := b.metadata.nextItem } } := by
  rw [colocate_getElem?, ha] at hb
  simp only [Option.map, Option.some.injEq] at hb
  refine ⟨colocate_length arr, ?_⟩
  rw [← hb, linkedAt_shape]

/-- Witness for the amended C8 on a concrete collection. -/
theorem colocate_changes_only_links_witness :
    (colocate [wDocA, wDocB]).length = [wDocA, wDocB].length ∧
    linkedAt [wDocA, wDocB] 0 wDocA =
      { id := wDocA.id
        metadata :=
          { wDocA.metadata with
              prevItem := (linkedAt [wDocA, wDocB] 0 wDocA).metadata.prevItem
              nextItem := (linkedAt [wDocA, wDocB] 0 wDocA).metadata.nextItem } } :=
  colocate_changes_only_links ReleaseExtra [wDocA, wDocB] 0 wDocA
    (linkedAt [wDocA, wDocB] 0 wDocA) rfl (by decide)

/-- Claim C5: with a non-existent release directory both generators
return the empty collection (and, being total functions of their inputs
in this model, they return it normally rather than raising). -/
theorem generate_missing_dir (env : GenEnv) (files : List SourceFile)
    (h : env.dirExists = false) :
    generateReleases env files = [] ∧ generateHighlights env files = [] := by
  simp [generateReleases, generateHighlights, h]

/-- A concrete environment whose release directory is missing. -/
def wEnvMissing : GenEnv :=
  { production := false
    baseUrl := str "/"
    routeBasePath := str "releases-new"
    truncateMarker := none
    releaseDir := str "/site/releases"
    siteDir := str "/site"
    dirExists := false }

/-- Witness for C5 at a concrete environment and file list. -/
theorem generate_missing_dir_witness :
    generateReleases wEnvMissing [{ relativeSource := str "v1.md" }] = [] ∧
    generateHighlights wEnvMissing [{ relativeSource := str "v1.md" }] = [] :=
  generate_missing_dir wEnvMissing [{ relativeSource := str "v1.md" }] rfl

/-- The aliased source path recorded for a file by both generators. -/
def sourceAlias (env : GenEnv) (f : SourceFile) : Str :=
  aliasedSitePath (pathJoin env.releaseDir f.relativeSource) env.siteDir

theorem mkRelease_eq_none_iff (env : GenEnv) (f : SourceFile) :
    mkRelease env f = none ↔ (f.frontMatter.draft && env.production) = true := by
  unfold mkRelease
  by_cases h : (f.frontMatter.draft && env.production) = true <;> simp [h]

theorem mkRelease_source (env : GenEnv) (f : SourceFile) (d : Release)
    (h : mkRelease env f = some d) : d.metadata.source = sourceAlias env f := by
  unfold mkRelease at h
  by_cases hc : (f.frontMatter.draft && env.production) = true
  · simp [hc] at h
  · simp only [hc, if_neg, Bool.not_eq_true, Option.some.injEq] at h
    subst h
    rfl

theorem mkHighlight_eq_none_iff (env : GenEnv) (f : SourceFile) :
    mkHighlight env f = none ↔ (f.frontMatter.draft && env.production) = true := by
  unfold mkHighlight
  by_cases h : (f.frontMatter.draft && env.production) = true <;> simp [h]

theorem mkHighlight_source (env : GenEnv) (f : SourceFile) (d : ReleaseHighlight)
    (h : mkHighlight env f = some d) : d.metadata.source = sourceAlias env f := by
  unfold mkHighlight at h
  by_cases hc : (f.frontMatter.draft && env.production) = true
  · simp [hc] at h
  · simp only [hc, if_neg, Bool.not_eq_true, Option.some.injEq] at h
    subst h
    rfl

/-- Claim C4: a file marked draft yields a document in the generated
collection exactly when production mode is off (stated for collections of
files with pairwise-distinct aliased source paths, which is what the glob
produces); the same holds for highlights. -/
theorem generate_draft_exclusion (env : GenEnv) (files : List SourceFile)
    (f : SourceFile) (hf : f ∈ files) (hdraft : f.frontMatter.draft = true)
    (hex : env.dirExists = true)
    (hnodup : (files.map (fun g => sourceAlias env g)).Nodup) :
    ((∃ d ∈ generateReleases env files, d.metadata.source = sourceAlias env f) ↔
      env.production = false) ∧
    ((∃ d ∈ generateHighlights env files, d.metadata.source = sourceAlias env f) ↔
      env.production = false) := by
  have hgenR : generateReleases env files = files.filterMap (mkRelease env) := by
    simp [generateReleases, hex]
  have hgenH : generateHighlights env files = files.filterMap (mkHighlight env) := by
    simp [generateHighlights, hex]
  constructor
  · rw [hgenR]
    constructor
    · rintro ⟨d, hd, hsrc⟩
      obtain ⟨g, hg, hmk⟩ := List.mem_filterMap.mp hd
      have hsg : d.metadata.source = sourceAlias env g := mkRelease_source env g d hmk
      have hgf : g = f :=
        List.inj_on_of_nodup_map hnodup hg hf (by rw [← hsg, hsrc])
      subst hgf
      cases hp : env.production
      · rfl
      · exfalso
        have : mkRelease env g = none :=
          (mkRelease_eq_none_iff env g).mpr (by rw [hdraft, hp]; rfl)
        rw [this] at hmk
        exact Option.noConfusion hmk
    · intro hp
      have hcond : (f.frontMatter.draft && env.production) = false := by
        rw [hp]; simp
      have hmk : ∃ d, mkRelease env f = some d ∧ d.metadata.source = sourceAlias env f := by
        unfold mkRelease
        rw [if_neg (by rw [hcond]; simp)]
        exact ⟨_, rfl, rfl⟩
      obtain ⟨d, hmk, hsrc⟩ := hmk
      exact ⟨d, List.mem_filterMap.mpr ⟨f, hf, hmk⟩, hsrc⟩
  · rw [hgenH]
    constructor
    · rintro ⟨d, hd, hsrc⟩
      obtain ⟨g, hg, hmk⟩ := List.mem_filterMap.mp hd
      have hsg : d.metadata.source = sourceAlias env g := mkHighlight_source env g d hmk
      have hgf : g = f :=
        List.inj_on_of_nodup_map hnodup hg hf (by rw [← hsg, hsrc])
      subst hgf
      cases hp : env.production
      · rfl
      · exfalso
        have : mkHighlight env g = none :=
          (mkHighlight_eq_none_iff env g).mpr (by rw [hdraft, hp]; rfl)
        rw [this] at hmk
        exact Option.noConfusion hmk
    · intro hp
      have hcond : (f.frontMatter.draft && env.production) = false := by
        rw [hp]; simp
      have hmk : ∃ d, mkHighlight env f = some d ∧ d.metadata.source = sourceAlias env f := by
        unfold mkHighlight
        rw [if_neg (by rw [hcond]; simp)]
        exact ⟨_, rfl, rfl⟩
      obtain ⟨d, hmk, hsrc⟩ := hmk
      exact ⟨d, List.mem_filterMap.mpr ⟨f, hf, hmk⟩, hsrc⟩

/-- A concrete environment whose release directory exists and whose
configured truncation marker is the default one. -/
def wEnvLive : GenEnv :=
  { production := false
    baseUrl := str "/"
    routeBasePath := str "releases-new"
    truncateMarker := none
    releaseDir := str "/site/releases"
    siteDir := str "/site"
    dirExists := true }

/-- A concrete draft source file. -/
def wDraftFile : SourceFile :=
  { relativeSource := str "v1.md", frontMatter := { draft := true } }

/-- Witness for C4: with production off, the concrete draft file appears
in both generated collections. -/
theorem generate_draft_exclusion_witness :
    ((∃ d ∈ generateReleases wEnvLive [wDraftFile],
        d.metadata.source = sourceAlias wEnvLive wDraftFile) ↔
      wEnvLive.production = false) ∧
    ((∃ d ∈ generateHighlights wEnvLive [wDraftFile],
        d.metadata.source = sourceAlias wEnvLive wDraftFile) ↔
      wEnvLive.production = false) :=
  generate_draft_exclusion wEnvLive [wDraftFile] wDraftFile
    (List.mem_singleton.mpr rfl) rfl rfl (by simp)

/-- Strip a literal prefix, returning the remainder when it is present. -/
def chompLit (lit s : Str) : Option Str :=
  if lit.isPrefixOf s then some (s.drop lit.length) else none

/-- Drop leading whitespace (one greedy read of a whitespace-class run). -/
def dropSpaces (s : Str) : Str := s.dropWhile isSpaceChar

/-- Try to match the default truncation marker regex (an HTML comment
containing the word truncate, with optional surrounding whitespace) at the
start of `s`.  The whitespace runs are read greedily; no backtracking is
needed because whitespace never starts the literal that follows a run. -/
def matchTruncateAt (s : Str) : Bool :=
  ((chompLit (str "<!--") s).bind fun r1 =>
    (chompLit (str "truncate") (dropSpaces r1)).bind fun r2 =>
      chompLit (str "-->") (dropSpaces r2)).isSome

/-- Scan every suffix for a match of the default truncation marker. -/
def hasTruncateFrom : Str → Bool
  | [] => false
  | c :: rest => matchTruncateAt (c :: rest) || hasTruncateFrom rest

/-- The `test` of the default `truncateMarker` option of the plugin
(`DEFAULT_OPTIONS.truncateMarker`): does the marker match anywhere? -/
def defaultTruncateMarker (s : Str) : Bool := hasTruncateFrom s

/-- The declarative reading of the default truncation marker pattern
matching somewhere in `s`. -/
def TruncateMatch (s : Str) : Prop :=
  ∃ pre w1 w2 post : Str,
    (∀ c ∈ w1, isSpaceChar c = true) ∧ (∀ c ∈ w2, isSpaceChar c = true) ∧
    s = pre ++ str "<!--" ++ w1 ++ str "truncate" ++ w2 ++ str "-->" ++ post

theorem isPrefixOf_append_self (l1 l2 : Str) : l1.isPrefixOf (l1 ++ l2) = true :=
  List.isPrefixOf_iff_prefix.mpr (List.prefix_append l1 l2)

theorem chompLit_append (lit x : Str) : chompLit lit (lit ++ x) = some x := by
  unfold chompLit
  rw [if_pos (isPrefixOf_append_self lit x), List.drop_left]

theorem chompLit_sound (lit s r : Str) (h : chompLit lit s = some r) :
    s = lit ++ r := by
  unfold chompLit at h
  by_cases hp : lit.isPrefixOf s = true
  · rw [if_pos hp, Option.some.injEq] at h
    obtain ⟨t, ht⟩ := List.isPrefixOf_iff_prefix.mp hp
    rw [← ht, List.drop_left] at h
    rw [← ht, h]
  · rw [if_neg hp] at h
    exact absurd h (by simp)

theorem dropSpaces_append_cons (w : Str) (c : Char) (t : Str)
    (hw : ∀ a ∈ w, isSpaceChar a = true) (hc : isSpaceChar c = false) :
    dropSpaces (w ++ c :: t) = c :: t := by
  unfold dropSpaces
  rw [List.dropWhile_append, List.dropWhile_eq_nil_iff.mpr hw]
  simp only [List.isEmpty_nil, if_pos]
  rw [List.dropWhile_cons_of_neg (by rw [hc]; simp)]

theorem dropSpaces_split (s : Str) :
    s = s.takeWhile isSpaceChar ++ dropSpaces s :=
  (List.takeWhile_append_dropWhile isSpaceChar s).symm

theorem matchTruncateAt_complete (w1 w2 post : Str)
    (h1 : ∀ c ∈ w1, isSpaceChar c = true) (h2 : ∀ c ∈ w2, isSpaceChar c = true) :
    matchTruncateAt
      (str "<!--" ++ (w1 ++ (str "truncate" ++ (w2 ++ (str "-->" ++ post))))) = true := by
  unfold matchTruncateAt
  rw [chompLit_append, Option.some_bind]
  have e1 : str "truncate" ++ (w2 ++ (str "-->" ++ post)) =
      't' :: (str "runcate" ++ (w2 ++ (str "-->" ++ post))) := rfl
  rw [e1, dropSpaces_append_cons w1 't' _ h1 rfl, ← e1, chompLit_append, Option.some_bind]
  have e2 : str "-->" ++ post = '-' :: (str "->" ++ post) := rfl
  rw [e2, dropSpaces_append_cons w2 '-' _ h2 rfl, ← e2, chompLit_append]
  rfl

theorem matchTruncateAt_sound (s : Str) (h : matchTruncateAt s = true) :
    ∃ w1 w2 post : Str,
      (∀ c ∈ w1, isSpaceChar c = true) ∧ (∀ c ∈ w2, isSpaceChar c = true) ∧
      s = str "<!--" ++ (w1 ++ (str "truncate" ++ (w2 ++ (str "-->" ++ post)))) := by
  unfold matchTruncateAt at h
  cases h1 : chompLit (str "<!--") s with
  | none => rw [h1, Option.none_bind] at h; exact absurd h (by simp)
  | some r1 =>
    rw [h1, Option.some_bind] at h
    cases h2 : chompLit (str "truncate") (dropSpaces r1) with
    | none => rw [h2, Option.none_bind] at h; exact absurd h (by simp)
    | some r2 =>
      rw [h2, Option.some_bind] at h
      cases h3 : chompLit (str "-->") (dropSpaces r2) with
      | none => rw [h3] at h; exact absurd h (by simp)
      | some r3 =>
        refine ⟨r1.takeWhile isSpaceChar, r2.takeWhile isSpaceChar, r3, ?_, ?_, ?_⟩
        · intro c hc; exact List.mem_takeWhile_imp hc
        · intro c hc; exact List.mem_takeWhile_imp hc
        · calc s = str "<!--" ++ r1 := chompLit_sound _ _ _ h1
            _ = str "<!--" ++ (r1.takeWhile isSpaceChar ++ dropSpaces r1) := by
                rw [← dropSpaces_split r1]
            _ = str "<!--" ++ (r1.takeWhile isSpaceChar ++ (str "truncate" ++ r2)) := by
                rw [chompLit_sound _ _ _ h2]
            _ = str "<!--" ++ (r1.takeWhile isSpaceChar ++
                  (str "truncate" ++ (r2.takeWhile isSpaceChar ++ dropSpaces r2))) := by
                rw [← dropSpaces_split r2]
            _ = str "<!--" ++ (r1.takeWhile isSpaceChar ++
                  (str "truncate" ++ (r2.takeWhile isSpaceChar ++ (str "-->" ++ r3)))) := by
                rw [chompLit_sound _ _ _ h3]

theorem hasTruncateFrom_iff (s : Str) :
    hasTruncateFrom s = true ↔ ∃ pre suf : Str, s = pre ++ suf ∧ matchTruncateAt suf = true := by
  induction s with
  | nil =>
    simp only [hasTruncateFrom]
    constructor
    · intro h; exact absurd h (by simp)
    · rintro ⟨pre, suf, heq, hm⟩
      obtain ⟨hpre, hsuf⟩ := List.append_eq_nil.mp heq.symm
      subst hsuf
      rw [show matchTruncateAt [] = false from rfl] at hm
      exact absurd hm (by simp)
  | cons c rest ih =>
    simp only [hasTruncateFrom, Bool.or_eq_true, ih]
    constructor
    · rintro (hm | ⟨pre, suf, heq, hm⟩)
      · exact ⟨[], c :: rest, rfl, hm⟩
      · exact ⟨c :: pre, suf, by rw [List.cons_append, heq], hm⟩
    · rintro ⟨pre, suf, heq, hm⟩
      cases pre with
      | nil => left; rw [List.nil_append] at heq; rw [heq]; exact hm
      | cons p pre' =>
        right
        rw [List.cons_append] at heq
        injection heq with hc htail
        exact ⟨pre', suf, htail, hm⟩

/-- The executable default-marker test agrees with the declarative pattern. -/
theorem defaultTruncateMarker_iff (s : Str) :
    defaultTruncateMarker s = true ↔ TruncateMatch s := by
  unfold defaultTruncateMarker TruncateMatch
  rw [hasTruncateFrom_iff]
  constructor
  · rintro ⟨pre, suf, heq, hm⟩
    obtain ⟨w1, w2, post, hw1, hw2, hsuf⟩ := matchTruncateAt_sound suf hm
    exact ⟨pre, w1, w2, post, hw1, hw2, by rw [heq, hsuf]; simp [List.append_assoc]⟩
  · rintro ⟨pre, w1, w2, post, hw1, hw2, heq⟩
    refine ⟨pre, str "<!--" ++ (w1 ++ (str "truncate" ++ (w2 ++ (str "-->" ++ post)))), ?_, ?_⟩
    · rw [heq]; simp [List.append_assoc]
    · exact matchTruncateAt_complete w1 w2 post hw1 hw2

theorem mkRelease_truncated (env : GenEnv) (f : SourceFile) (d : Release)
    (h : mkRelease env f = some d) :
    d.metadata.truncated = truncatedFlag env.truncateMarker f.content := by
  unfold mkRelease at h
  by_cases hc : (f.frontMatter.draft && env.production) = true
  · simp [hc] at h
  · simp only [hc, if_neg, Bool.not_eq_true, Option.some.injEq] at h
    subst h
    rfl

theorem mkHighlight_truncated (env : GenEnv) (f : SourceFile) (d : ReleaseHighlight)
    (h : mkHighlight env f = some d) :
    d.metadata.truncated = truncatedFlag env.truncateMarker f.content := by
  unfold mkHighlight at h
  by_cases hc : (f.frontMatter.draft && env.production) = true
  · simp [hc] at h
  · simp only [hc, if_neg, Bool.not_eq_true, Option.some.injEq] at h
    subst h
    rfl

/-- Claim C6: with the default truncation marker configured, the
`truncated` field of a document built by `generateReleases` /
`generateHighlights` is true exactly when the marker pattern matches
somewhere in the parsed body content. -/
theorem generate_truncated_iff (env : GenEnv) (f : SourceFile)
    (hm : env.truncateMarker = some defaultTruncateMarker) :
    (∀ d : Release, mkRelease env f = some d →
      (d.metadata.truncated = true ↔ TruncateMatch f.content)) ∧
    (∀ d : ReleaseHighlight, mkHighlight env f = some d →
      (d.metadata.truncated = true ↔ TruncateMatch f.content)) := by
  constructor
  · intro d hd
    rw [mkRelease_truncated env f d hd, hm]
    exact defaultTruncateMarker_iff f.content
  · intro d hd
    rw [mkHighlight_truncated env f d hd, hm]
    exact defaultTruncateMarker_iff f.content

/-- A concrete environment configured with the default truncation marker. -/
def wEnvMarker : GenEnv :=
  { production := false
    baseUrl := str "/"
    routeBasePath := str "releases-new"
    truncateMarker := some defaultTruncateMarker
    releaseDir := str "/site/releases"
    siteDir := str "/site"
    dirExists := true }

/-- A concrete file containing the default truncation marker. -/
def wTruncFile : SourceFile :=
  { relativeSource := str "v1.md", content := str "hello <!-- truncate --> bye" }

/-- A concrete file not containing the truncation marker. -/
def wPlainFile : SourceFile :=
  { relativeSource := str "v2.md", content := str "hello bye" }

/-- The release built from the marker-carrying file. -/
def wTruncDoc : Release :=
  (mkRelease wEnvMarker wTruncFile).getD (sampleRelease "" "" "")

/-- The release built from the marker-free file. -/
def wPlainDoc : Release :=
  (mkRelease wEnvMarker wPlainFile).getD (sampleRelease "" "" "")

/-- Witness for C6: the marker-carrying file has `truncated = true` (and
the declarative pattern indeed matches), the marker-free one does not. -/
theorem generate_truncated_iff_witness :
    TruncateMatch wTruncFile.content ∧ ¬ TruncateMatch wPlainFile.content := by
  constructor
  · exact ((generate_truncated_iff wEnvMarker wTruncFile rfl).1 wTruncDoc rfl).mp rfl
  · intro hmatch
    have h := ((generate_truncated_iff wEnvMarker wPlainFile rfl).1 wPlainDoc rfl).mpr hmatch
    exact absurd h (by decide)

/-- The id-or-filename key from which a document's permalink is derived. -/
def keyOf (f : SourceFile) : Str :=
  jsOr f.frontMatter.id (stripMdExt f.relativeSource)

theorem mkRelease_permalink (env : GenEnv) (f : SourceFile) (d : Release)
    (h : mkRelease env f = some d) :
    d.metadata.permalink = normalizeUrl [env.baseUrl, env.routeBasePath, keyOf f] := by
  unfold mkRelease at h
  by_cases hc : (f.frontMatter.draft && env.production) = true
  · simp [hc] at h
  · simp only [hc, if_neg, Bool.not_eq_true, Option.some.injEq] at h
    subst h
    rfl

theorem mkHighlight_permalink (env : GenEnv) (f : SourceFile) (d : ReleaseHighlight)
    (h : mkHighlight env f = some d) :
    d.metadata.permalink = normalizeUrl [env.baseUrl, env.routeBasePath, keyOf f] := by
  unfold mkHighlight at h
  by_cases hc : (f.frontMatter.draft && env.production) = true
  · simp [hc] at h
  · simp only [hc, if_neg, Bool.not_eq_true, Option.some.injEq] at h
    subst h
    rfl

theorem collapseSlashes_cons2 (c d : Char) (rest : Str) :
    collapseSlashes (c :: d :: rest) =
      if (c = '/' && d = '/') = true then collapseSlashes (d :: rest)
      else c :: collapseSlashes (d :: rest) := rfl

theorem collapseSlashes_noslash (k : Str) (hk : ∀ c ∈ k, c ≠ '/') :
    collapseSlashes k = k := by
  induction k with
  | nil => rfl
  | cons c rest ih =>
    cases rest with
    | nil => rfl
    | cons d rest' =>
      rw [collapseSlashes_cons2 c d rest']
      rw [if_neg (by
        have hcne : c ≠ '/' := hk c (by simp)
        simp [hcne])]
      rw [ih (fun a ha => hk a (List.mem_cons_of_mem c ha))]

theorem collapseSlashes_append_cons (p : Str) (c : Char) (k : Str) (hc : c ≠ '/') :
    collapseSlashes (p ++ c :: k) = collapseSlashes p ++ collapseSlashes (c :: k) := by
  induction p with
  | nil => rfl
  | cons a p' ih =>
    cases p' with
    | nil =>
      show collapseSlashes (a :: c :: k) = collapseSlashes [a] ++ collapseSlashes (c :: k)
      rw [collapseSlashes_cons2 a c k, if_neg (by simp [hc])]
      rfl
    | cons b p'' =>
      show collapseSlashes (a :: b :: (p'' ++ c :: k)) =
        collapseSlashes (a :: b :: p'') ++ collapseSlashes (c :: k)
      rw [collapseSlashes_cons2 a b (p'' ++ c :: k), collapseSlashes_cons2 a b p'']
      by_cases hab : (a = '/' && b = '/') = true
      · rw [if_pos hab, if_pos hab]
        exact ih
      · rw [if_neg hab, if_neg hab]
        rw [List.cons_append] at ih
        rw [ih, List.cons_append]

theorem normalizeUrl_key_inj (b r k1 k2 : Str)
    (h1 : k1 ≠ [] ∧ ∀ c ∈ k1, c ≠ '/') (h2 : k2 ≠ [] ∧ ∀ c ∈ k2, c ≠ '/')
    (hne : k1 ≠ k2) :
    normalizeUrl [b, r, k1] ≠ normalizeUrl [b, r, k2] := by
  have hjoin : ∀ k : Str, joinOnChar '/' [b, r, k] = (b ++ '/' :: (r ++ ['/'])) ++ k := by
    intro k
    show b ++ '/' :: (r ++ '/' :: k) = (b ++ '/' :: (r ++ ['/'])) ++ k
    simp [List.append_assoc]
  intro heq
  unfold normalizeUrl at heq
  rw [hjoin k1, hjoin k2] at heq
  obtain ⟨c1, k1', rfl⟩ : ∃ c t, k1 = c :: t := by
    cases k1 with
    | nil => exact absurd rfl h1.1
    | cons c t => exact ⟨c, t, rfl⟩
  obtain ⟨c2, k2', rfl⟩ : ∃ c t, k2 = c :: t := by
    cases k2 with
    | nil => exact absurd rfl h2.1
    | cons c t => exact ⟨c, t, rfl⟩
  rw [collapseSlashes_append_cons _ _ _ (h1.2 c1 (by simp)),
      collapseSlashes_append_cons _ _ _ (h2.2 c2 (by simp)),
      collapseSlashes_noslash _ h1.2, collapseSlashes_noslash _ h2.2] at heq
  exact hne ((List.append_right_inj _).mp heq)

/-- Claim C3 (amended): each generated permalink is derived
deterministically from the document's front-matter id (or its filename
with the markdown extension stripped, when the id is absent) plus the
configured base URL and route prefix; and the permalinks of a collection
are pairwise distinct provided those id-or-filename keys are pairwise
distinct, non-empty and slash-free (the code never de-duplicates, so
distinctness of the keys is required). -/
theorem generate_permalinks_amended (env : GenEnv) (files : List SourceFile)
    (hkeys : (files.map keyOf).Nodup)
    (hok : ∀ f ∈ files, keyOf f ≠ [] ∧ ∀ c ∈ keyOf f, c ≠ '/') :
    ((∀ d ∈ generateReleases env files, ∃ f ∈ files,
        d.metadata.permalink = normalizeUrl [env.baseUrl, env.routeBasePath, keyOf f]) ∧
      (generateReleases env files).Pairwise
        (fun d e => d.metadata.permalink ≠ e.metadata.permalink)) ∧
    ((∀ d ∈ generateHighlights env files, ∃ f ∈ files,
        d.metadata.permalink = normalizeUrl [env.baseUrl, env.routeBasePath, keyOf f]) ∧
      (generateHighlights env files).Pairwise
        (fun d e => d.metadata.permalink ≠ e.metadata.permalink)) := by
  have hpairs : files.Pairwise (fun f g => keyOf f ≠ keyOf g) :=
    List.pairwise_map.mp hkeys
  have hpairs' :
      files.Pairwise (fun f g =>
        normalizeUrl [env.baseUrl, env.routeBasePath, keyOf f] ≠
          normalizeUrl [env.baseUrl, env.routeBasePath, keyOf g]) :=
    hpairs.imp_of_mem (fun ha hb hR =>
      normalizeUrl_key_inj env.baseUrl env.routeBasePath _ _ (hok _ ha) (hok _ hb) hR)
  cases hex : env.dirExists
  · have hR : generateReleases env files = [] := by simp [generateReleases, hex]
    have hH : generateHighlights env files = [] := by simp [generateHighlights, hex]
    rw [hR, hH]
    exact ⟨⟨by simp, List.Pairwise.nil⟩, ⟨by simp, List.Pairwise.nil⟩⟩
  · have hR : generateReleases env files = files.filterMap (mkRelease env) := by
      simp [generateReleases, hex]
    have hH : generateHighlights env files = files.filterMap (mkHighlight env) := by
      simp [generateHighlights, hex]
    rw [hR, hH]
    refine ⟨⟨?_, ?_⟩, ⟨?_, ?_⟩⟩
    · intro d hd
      obtain ⟨f, hf, hmk⟩ := List.mem_filterMap.mp hd
      exact ⟨f, hf, mkRelease_permalink env f d hmk⟩
    · refine List.Pairwise.filterMap (mkRelease env) ?_ hpairs'
      intro a b hR' c hc e he
      rw [mkRelease_permalink env a c (Option.mem_def.mp hc),
          mkRelease_permalink env b e (Option.mem_def.mp he)]
      exact hR'
    · intro d hd
      obtain ⟨f, hf, hmk⟩ := List.mem_filterMap.mp hd
      exact ⟨f, hf, mkHighlight_permalink env f d hmk⟩
    · refine List.Pairwise.filterMap (mkHighlight env) ?_ hpairs'
      intro a b hR' c hc e he
      rw [mkHighlight_permalink env a c (Option.mem_def.mp hc),
          mkHighlight_permalink env b e (Option.mem_def.mp he)]
      exact hR'

/-- Two distinct source files carrying the same front-matter id. -/
def wIdFile1 : SourceFile :=
  { relativeSource := str "a.md", frontMatter := { id := some (str "v1") } }

/-- Two distinct source files carrying the same front-matter id. -/
def wIdFile2 : SourceFile :=
  { relativeSource := str "b.md", frontMatter := { id := some (str "v1") } }

/-- Counterexample for C3: two distinct files with the same front-matter
id yield two distinct documents with equal permalinks, so the permalinks
of a generated collection are not pairwise distinct in general. -/
theorem generate_permalinks_counterexample :
    (generateReleases wEnvLive [wIdFile1, wIdFile2]).length = 2 ∧
    ((generateReleases wEnvLive [wIdFile1, wIdFile2])[0]?).map
        (fun d => d.metadata.permalink) =
      ((generateReleases wEnvLive [wIdFile1, wIdFile2])[1]?).map
        (fun d => d.metadata.permalink) ∧
    (generateReleases wEnvLive [wIdFile1, wIdFile2])[0]? ≠
      (generateReleases wEnvLive [wIdFile1, wIdFile2])[1]? := by decide

/-- Two source files with distinct, slash-free ids. -/
def wKeyFile1 : SourceFile :=
  { relativeSource := str "a.md", frontMatter := { id := some (str "v1") } }

/-- Two source files with distinct, slash-free ids. -/
def wKeyFile2 : SourceFile :=
  { relativeSource := str "b.md", frontMatter := { id := some (str "v2") } }

/-- Witness for the amended C3 on a concrete two-file collection. -/
theorem generate_permalinks_amended_witness :
    ((∀ d ∈ generateReleases wEnvLive [wKeyFile1, wKeyFile2], ∃ f ∈ [wKeyFile1, wKeyFile2],
        d.metadata.permalink =
          normalizeUrl [wEnvLive.baseUrl, wEnvLive.routeBasePath, keyOf f]) ∧
      (generateReleases wEnvLive [wKeyFile1, wKeyFile2]).Pairwise
        (fun d e => d.metadata.permalink ≠ e.metadata.permalink)) ∧
    ((∀ d ∈ generateHighlights wEnvLive [wKeyFile1, wKeyFile2], ∃ f ∈ [wKeyFile1, wKeyFile2],
        d.metadata.permalink =
          normalizeUrl [wEnvLive.baseUrl, wEnvLive.routeBasePath, keyOf f]) ∧
      (generateHighlights wEnvLive [wKeyFile1, wKeyFile2]).Pairwise
        (fun d e => d.metadata.permalink ≠ e.metadata.permalink)) :=
  generate_permalinks_amended wEnvLive [wKeyFile1, wKeyFile2] (by decide) (by decide)

theorem joinOnChar_cons (sep : Char) (l : Str) (rest : List Str) (h : rest ≠ []) :
    joinOnChar sep (l :: rest) = l ++ sep :: joinOnChar sep rest := by
  cases rest with
  | nil => exact absurd rfl h
  | cons l2 ls => rfl

theorem splitOnChar_ne_nil (sep : Char) (s : Str) : splitOnChar sep s ≠ [] := by
  cases s with
  | nil => simp [splitOnChar]
  | cons c cs =>
    unfold splitOnChar
    by_cases h : c = sep
    · simp [h]
    · cases hs : splitOnChar sep cs <;> simp [h, hs]

theorem joinOnChar_splitOnChar (sep : Char) (s : Str) :
    joinOnChar sep (splitOnChar sep s) = s := by
  induction s with
  | nil => rfl
  | cons c cs ih =>
    unfold splitOnChar
    by_cases h : c = sep
    · rw [if_pos h, joinOnChar_cons sep [] _ (splitOnChar_ne_nil sep cs)]
      rw [List.nil_append, ih, h]
    · rw [if_neg h]
      cases hs : splitOnChar sep cs with
      | nil => exact absurd hs (splitOnChar_ne_nil sep cs)
      | cons l ls =>
        rw [hs] at ih
        cases ls with
        | nil =>
          show c :: l = c :: cs
          rw [show joinOnChar sep [l] = l from rfl] at ih
          rw [ih]
        | cons l2 ls2 =>
          rw [joinOnChar_cons sep (c :: l) _ (by simp)]
          rw [joinOnChar_cons sep l _ (by simp)] at ih
          rw [List.cons_append, ih]

theorem joinLines_splitLines (s : Str) : joinLines (splitLines s) = s :=
  joinOnChar_splitOnChar '\n' s

theorem lineLoop_succ (releases : List (Doc ε)) (sd rp : Str) (fuel : Nat)
    (line : Str) (i : Nat) :
    lineLoop releases sd rp (fuel + 1) line i =
      match execFrom line i with
      | none => line
      | some (_, e, tgt) =>
        match lookupPermalink releases (linkTargetAlias sd rp tgt) with
        | some p =>
          if p = [] then lineLoop releases sd rp fuel line e
          else lineLoop releases sd rp fuel (replaceFirst tgt p line) e
        | none => lineLoop releases sd rp fuel line e := rfl

theorem lineLoop_unchanged (releases : List (Doc ε)) (sd rp : Str) (fuel : Nat)
    (line : Str) (i : Nat)
    (h : ∀ j s e tgt, execFrom line j = some (s, e, tgt) →
      lookupPermalink releases (linkTargetAlias sd rp tgt) = none ∨
      lookupPermalink releases (linkTargetAlias sd rp tgt) = some []) :
    lineLoop releases sd rp fuel line i = line := by
  induction fuel generalizing i with
  | zero => rfl
  | succ fuel ih =>
    rw [lineLoop_succ]
    split
    · rfl
    · rename_i st e tgt heq
      split
      · rename_i p hp
        rcases h i st e tgt heq with hnone | hempty
        · rw [hp] at hnone
          exact absurd hnone (by simp)
        · rw [hp, Option.some.injEq] at hempty
          rw [if_pos hempty]
          exact ih e
      · exact ih e

theorem lookupPermalink_nil (src : Str) :
    lookupPermalink ([] : List (Doc ε)) src = none := rfl

theorem processLines_cons (releases : List (Doc ε)) (sd rp : Str) (fenced : Bool)
    (line : Str) (rest : List Str) :
    processLines releases sd rp fenced (line :: rest) =
      (if (if fenceLine line then !fenced else fenced) then line
       else lineLoop releases sd rp (lineFuel releases line) line 0) ::
        processLines releases sd rp (if fenceLine line then !fenced else fenced) rest := rfl

theorem processLines_nil_releases (sd rp : Str) (fenced : Bool) (lines : List Str) :
    processLines ([] : List (Doc ε)) sd rp fenced lines = lines := by
  induction lines generalizing fenced with
  | nil => rfl
  | cons line rest ih =>
    rw [processLines_cons]
    rw [lineLoop_unchanged ([] : List (Doc ε)) sd rp _ line 0
      (fun j s e tgt _ => Or.inl (lookupPermalink_nil _))]
    rw [ite_self, ih]

/-- Claim C10: `linkify` applied with an empty document collection is the
identity: no line can be rewritten (every permalink lookup fails), and
splitting on newlines followed by re-joining reproduces the input text. -/
theorem linkify_empty_releases (ε : Type) (fileContent siteDir releasePath : Str) :
    linkify fileContent siteDir releasePath ([] : List (Doc ε)) = fileContent := by
  unfold linkify
  rw [processLines_nil_releases, joinLines_splitLines]

theorem takeTarget_capture (run : Str) (e : Nat) (tgt : Str)
    (h : takeTarget run = some (e, tgt)) : tgt = run.take e := by
  unfold takeTarget at h
  split at h
  · exact absurd h (by simp)
  · split at h
    · rw [Option.some.injEq, Prod.mk.injEq] at h
      rw [← h.1]
      exact h.2.symm
    · rw [Option.some.injEq, Prod.mk.injEq] at h
      rw [← h.1]
      exact h.2.symm

theorem tryTarget_no_https (u : Str) (e : Nat) (tgt : Str)
    (h : tryTarget u = some (e, tgt)) :
    (str "https").isPrefixOf tgt = false := by
  unfold tryTarget at h
  by_cases hh : (str "https").isPrefixOf u = true
  · rw [if_pos hh] at h
    exact absurd h (by simp)
  · rw [if_neg hh] at h
    have hcap := takeTarget_capture _ _ _ h
    by_contra hcontra
    have htgt : (str "https").isPrefixOf tgt = true := by
      revert hcontra
      cases (str "https").isPrefixOf tgt <;> simp
    apply hh
    apply List.isPrefixOf_iff_prefix.mpr
    have h1 : str "https" <+: tgt := List.isPrefixOf_iff_prefix.mp htgt
    have h2 : tgt <+: u.takeWhile targetChar := by
      rw [hcap]
      exact List.take_prefix _ _
    exact (h1.trans h2).trans (List.takeWhile_prefix _)

theorem matchAt_no_https (s : Str) (j e : Nat) (tgt : Str)
    (h : matchAt s j = some (e, tgt)) :
    (str "https").isPrefixOf tgt = false := by
  unfold matchAt at h
  split at h
  · split at h
    · rename_i e' tgt' hm
      rw [Option.some.injEq, Prod.mk.injEq] at h
      rw [← h.2]
      exact tryTarget_no_https _ _ _ hm
    · exact absurd h (by simp)
  · split at h
    · split at h
      · rename_i e' tgt' hm
        rw [Option.some.injEq, Prod.mk.injEq] at h
        rw [← h.2]
        exact tryTarget_no_https _ _ _ hm
      · exact absurd h (by simp)
    · exact absurd h (by simp)

theorem execAux_succ (line : Str) (fuel j : Nat) :
    execAux line (fuel + 1) j =
      match matchAt line j with
      | some (e, tgt) => some (j, e, tgt)
      | none => execAux line fuel (j + 1) := rfl

theorem execAux_no_https (line : Str) (fuel j s e : Nat) (tgt : Str)
    (h : execAux line fuel j = some (s, e, tgt)) :
    (str "https").isPrefixOf tgt = false := by
  induction fuel generalizing j with
  | zero => exact absurd h (by simp [execAux])
  | succ fuel ih =>
    rw [execAux_succ] at h
    split at h
    · rename_i e' tgt' hm
      rw [Option.some.injEq, Prod.mk.injEq, Prod.mk.injEq] at h
      rw [← h.2.2]
      exact matchAt_no_https _ _ _ _ hm
    · exact ih (j + 1) h

/-- A release whose aliased source corresponds to an https link target. -/
def wHttpsRelease : Release :=
  sampleRelease "H" "/x" "@site/releases/https:/e.com/x.md"

/-- A release whose aliased source corresponds to a plain-http link target. -/
def wHttpRelease : Release :=
  sampleRelease "H" "/x" "@site/releases/http:/e.com/a.md"

/-- Claim C7 (amended): the linkify matcher never captures a link target
beginning with `https` — such targets cannot be rewritten (the regex
lookahead excludes exactly the prefix `https`, not every http scheme);
concretely, an https link is left unchanged even when a release with the
corresponding aliased source is in the collection. -/
theorem linkify_https_excluded :
    (∀ (line : Str) (i s e : Nat) (tgt : Str),
      execFrom line i = some (s, e, tgt) →
      (str "https").isPrefixOf tgt = false) ∧
    linkify (str "[a](https://e.com/x.md)") (str "/site") (str "/site/releases")
        [wHttpsRelease] =
      str "[a](https://e.com/x.md)" := by
  constructor
  · intro line i s e tgt h
    exact execAux_no_https line _ i s e tgt h
  · decide

/-- Witness for the amended C7: a concrete match whose captured target,
by the theorem, cannot begin with `https`. -/
theorem linkify_https_excluded_witness :
    execFrom (str "[a](./v1.md)") 0 = some (2, 11, str "./v1.md") ∧
    (str "https").isPrefixOf (str "./v1.md") = false :=
  ⟨by decide, linkify_https_excluded.1 (str "[a](./v1.md)") 0 2 11 (str "./v1.md") (by decide)⟩

/-- Counterexample for C7: a link target with the plain `http` scheme is
rewritten by `linkify` when a release with the matching aliased source
exists, so absolute http-scheme targets are not always left unchanged. -/
theorem linkify_http_rewritten_counterexample :
    linkify (str "[a](http://e.com/a.md)") (str "/site") (str "/site/releases")
        [wHttpRelease] =
      str "[a](/x)" ∧
    str "[a](/x)" ≠ str "[a](http://e.com/a.md)" := by decide

/-- Number of fence-delimiter lines in a list of lines. -/
def countFences : List Str → Nat
  | [] => 0
  | l :: ls => (if fenceLine l then 1 else 0) + countFences ls

theorem parity_flip (x : Nat) : decide ((1 + x) % 2 = 1) = !decide (x % 2 = 1) := by
  rcases Nat.mod_two_eq_zero_or_one x with h | h <;> rw [Nat.add_mod, h] <;> decide

theorem bne_not_comm (a b : Bool) : (a != (!b)) = ((!a) != b) := by
  cases a <;> cases b <;> rfl

theorem processLines_fenced_aux (releases : List (Doc ε)) (sd rp : Str)
    (lines : List Str) (f : Bool) (j : Nat) (line : Str)
    (hj : lines[j]? = some line) (hnf : fenceLine line = false)
    (hflag : (f != decide (countFences (lines.take j) % 2 = 1)) = true) :
    (processLines releases sd rp f lines)[j]? = some line := by
  induction lines generalizing f j with
  | nil => simp at hj
  | cons l rest ih =>
    rw [processLines_cons]
    cases j with
    | zero =>
      rw [List.getElem?_cons_zero] at hj
      injection hj with hl
      subst hl
      have hf : f = true := by
        revert hflag
        cases f <;> simp [countFences]
      subst hf
      rw [List.getElem?_cons_zero]
      simp [hnf]
    | succ j =>
      rw [List.getElem?_cons_succ] at hj
      rw [List.getElem?_cons_succ]
      apply ih _ _ hj
      rw [List.take_succ_cons] at hflag
      by_cases hfl : fenceLine l = true
      · rw [hfl, if_pos rfl]
        rw [show countFences (l :: rest.take j) =
            1 + countFences (rest.take j) from by simp [countFences, hfl]] at hflag
        rw [parity_flip] at hflag
        rw [bne_not_comm] at hflag
        exact hflag
      · rw [Bool.not_eq_true] at hfl
        rw [hfl, if_neg (by simp)]
        rw [show countFences (l :: rest.take j) =
            countFences (rest.take j) from by simp [countFences, hfl]] at hflag
        exact hflag

theorem replaceFirst_cons (tgt rep : Str) (c : Char) (cs : Str) :
    replaceFirst tgt rep (c :: cs) =
      if tgt.isPrefixOf (c :: cs) then rep ++ (c :: cs).drop tgt.length
      else c :: replaceFirst tgt rep cs := rfl

theorem replaceFirst_at_first (tgt rep pre post : Str) (hne : tgt ≠ [])
    (hpre : ∀ j, j < pre.length →
      tgt.isPrefixOf ((pre ++ (tgt ++ post)).drop j) = false) :
    replaceFirst tgt rep (pre ++ (tgt ++ post)) = pre ++ (rep ++ post) := by
  induction pre with
  | nil =>
    simp only [List.nil_append]
    cases tgt with
    | nil => exact absurd rfl hne
    | cons a tgt' =>
      rw [List.cons_append, replaceFirst_cons,
        if_pos (show (a :: tgt').isPrefixOf (a :: (tgt' ++ post)) = true by
          rw [← List.cons_append]
          exact isPrefixOf_append_self _ _)]
      rw [← List.cons_append, List.drop_left]
  | cons c pre' ih =>
    rw [List.cons_append, replaceFirst_cons]
    have h0 : tgt.isPrefixOf (c :: (pre' ++ (tgt ++ post))) = false := by
      have h := hpre 0 (by simp)
      rwa [List.drop_zero, List.cons_append] at h
    rw [if_neg (by simp [h0])]
    rw [ih (fun j hj => by
      have h := hpre (j + 1) (by simpa using Nat.succ_lt_succ hj)
      rwa [List.cons_append, List.drop_succ_cons] at h)]
    rw [List.cons_append]

/-- The release matching the spec's canonical link-rewriting example. -/
def wV1Release : Release :=
  sampleRelease "V1" "/releases/v1" "@site/releases/v1.md"

/-- The release whose source alias matches the target `x.md`. -/
def wXRelease : Release :=
  sampleRelease "X" "/v1" "@site/releases/x.md"

/-- Claim C2 (amended): outside fenced blocks, each matched markdown link
target with a matching document triggers a substitution of the permalink
for the first occurrence of the target string in the line (which is the
link target itself only when the target text does not occur earlier in
the line); a line none of whose matched targets resolves to a matching
document with a non-empty permalink is left unchanged; and a non-fence
line preceded by an odd number of fence lines is emitted verbatim. -/
theorem linkify_rewrite_spec (ε : Type) :
    (∀ (releases : List (Doc ε)) (sd rp : Str) (lines : List Str) (j : Nat) (line : Str),
      lines[j]? = some line → fenceLine line = false →
      countFences (lines.take j) % 2 = 1 →
      (processLines releases sd rp false lines)[j]? = some line) ∧
    (∀ (releases : List (Doc ε)) (sd rp : Str) (fuel : Nat) (line : Str) (i : Nat),
      (∀ j s e tgt, execFrom line j = some (s, e, tgt) →
        lookupPermalink releases (linkTargetAlias sd rp tgt) = none ∨
        lookupPermalink releases (linkTargetAlias sd rp tgt) = some []) →
      lineLoop releases sd rp fuel line i = line) ∧
    (∀ (tgt rep pre post : Str), tgt ≠ [] →
      (∀ j, j < pre.length →
        tgt.isPrefixOf ((pre ++ (tgt ++ post)).drop j) = false) →
      replaceFirst tgt rep (pre ++ (tgt ++ post)) = pre ++ (rep ++ post)) ∧
    linkify (str "See [v1](./v1.md) notes") (str "/site") (str "/site/releases")
        [wV1Release] =
      str "See [v1](/releases/v1) notes" := by
  refine ⟨?_, ?_, ?_, ?_⟩
  · intro releases sd rp lines j line hj hnf hodd
    exact processLines_fenced_aux releases sd rp lines false j line hj hnf
      (by rw [decide_eq_true hodd]; rfl)
  · intro releases sd rp fuel line i h
    exact lineLoop_unchanged releases sd rp fuel line i h
  · intro tgt rep pre post hne hpre
    exact replaceFirst_at_first tgt rep pre post hne hpre
  · decide

/-- Counterexample for C2: when the matched link target also occurs
earlier in the line as plain text, the substitution hits that first
occurrence: the link target itself is left as it was and unrelated text
is rewritten instead. -/
theorem linkify_first_occurrence_counterexample :
    linkify (str "x.md [a](x.md)") (str "/site") (str "/site/releases") [wXRelease] =
      str "/v1 [a](x.md)" ∧
    str "/v1 [a](x.md)" ≠ str "x.md [a](/v1)" := by decide

/-- Witness for the amended C2: a line strictly inside a fence is kept
verbatim, and a first-occurrence substitution at a concrete input. -/
theorem linkify_rewrite_spec_witness :
    (processLines [wV1Release] (str "/site") (str "/site/releases") false
        (splitLines (str "a\n```\n[b](./v1.md)\n```")))[2]? =
      some (str "[b](./v1.md)") ∧
    replaceFirst (str "x.md") (str "/v1") (str "ab " ++ (str "x.md" ++ str " cd")) =
      str "ab " ++ (str "/v1" ++ str " cd") := by
  constructor
  · exact (linkify_rewrite_spec ReleaseExtra).1 [wV1Release] (str "/site")
      (str "/site/releases") (splitLines (str "a\n```\n[b](./v1.md)\n```")) 2
      (str "[b](./v1.md)") (by decide) (by decide) (by decide)
  · exact (linkify_rewrite_spec ReleaseExtra).2.2.1 (str "x.md") (str "/v1")
      (str "ab ") (str " cd") (by decide) (by decide)

/-- Documents as produced by the generators carry no pagination links yet,
so the hypothesis of the colocation-pass specification always holds for
the collections `loadContent` links. -/
theorem generate_no_links (env : GenEnv) (files : List SourceFile) :
    (∀ d ∈ generateReleases env files,
      d.metadata.prevItem = none ∧ d.metadata.nextItem = none) ∧
    (∀ d ∈ generateHighlights env files,
      d.metadata.prevItem = none ∧ d.metadata.nextItem = none) := by
  constructor
  · intro d hd
    unfold generateReleases at hd
    by_cases hex : env.dirExists
    · rw [if_neg (by simp [hex])] at hd
      obtain ⟨f, _, hmk⟩ := List.mem_filterMap.mp hd
      unfold mkRelease at hmk
      by_cases hc : (f.frontMatter.draft && env.production) = true
      · simp [hc] at hmk
      · simp only [hc, if_neg, Bool.not_eq_true, Option.some.injEq] at hmk
        subst hmk
        exact ⟨rfl, rfl⟩
    · rw [if_pos (by simp [Bool.not_eq_true] at hex ⊢; exact hex)] at hd
      simp at hd
  · intro d hd
    unfold generateHighlights at hd
    by_cases hex : env.dirExists
    · rw [if_neg (by simp [hex])] at hd
      obtain ⟨f, _, hmk⟩ := List.mem_filterMap.mp hd
      unfold mkHighlight at hmk
      by_cases hc : (f.frontMatter.draft && env.production) = true
      · simp [hc] at hmk
      · simp only [hc, if_neg, Bool.not_eq_true, Option.some.injEq] at hmk
        subst hmk
        exact ⟨rfl, rfl⟩
    · rw [if_pos (by simp [Bool.not_eq_true] at hex ⊢; exact hex)] at hd
      simp at hd
